import Mathlib

/-!
# Verification of the quanvolutional preprocessing transform

This file embeds the patch-wise quantum convolution `quanv` of
`tutorial_quanvolution.py` together with the 4-qubit circuit it applies to
every 2×2 patch, and proves the specified properties of the transform.

* The quantum circuit (`circuit`) is modelled as an exact state-vector
  simulation on `(Fin 4 → Fin 2) → ℂ`: an encoding layer of `RY (π · φ[j])`
  rotations on wires `j = 0..3`, followed by the gates emitted by
  `RandomLayers` (modelled from the spec as an arbitrary list of
  `RX`/`RY`/`RZ` rotations and `CNOT`s, since the concrete pseudo-random
  gate sequence lives in the PennyLane library, not in this repository),
  followed by a `PauliZ` expectation value on each wire.
* Images are bounds-checked arrays (`Image`, `getPixel`): an out-of-range
  numpy read raises `IndexError`, modelled by `Option`.
* The double loop of `quanv` is a monadic fold over the list of top-left
  patch coordinates `(j, k) ∈ range(0, 28, 2) × range(0, 28, 2)`, threading
  the pair (input image, output tensor) and writing only the output tensor.
* The preprocessing driver (`preprocessBatch`, `npSave`/`npLoad`,
  `preprocessAndLoad`) models lines 218–240 of the script: the optional
  recomputation guarded by `PREPROCESS` followed by the unconditional
  `np.load` of the two cache files.
-/

noncomputable section

open ComplexConjugate

/-! ## 4-qubit state vectors and gates -/

/-- A 4-qubit state: one complex amplitude per assignment of a bit to each
of the four wires. -/
abbrev QState := (Fin 4 → Fin 2) → ℂ

/-- The ground state `|0000⟩` in which `default.qubit` initializes the wires. -/
def ground : QState := fun f => if f = fun _ => 0 then 1 else 0

/-- Apply a single-qubit gate with matrix `U` to wire `w` of a 4-qubit state. -/
def applySingle (U : Fin 2 → Fin 2 → ℂ) (w : Fin 4) (v : QState) : QState :=
  fun f => ∑ x : Fin 2, U (f w) x * v (Function.update f w x)

/-- Apply a CNOT gate with control `c` and target `t`: basis permutation
`|…t…⟩ ↦ |…t ⊕ c…⟩`. -/
def applyCNOT (c t : Fin 4) (v : QState) : QState :=
  fun f => v (Function.update f t (f t + f c))

/-- The `RX θ` matrix `[[cos(θ/2), -i sin(θ/2)], [-i sin(θ/2), cos(θ/2)]]`. -/
def rxMat (θ : ℝ) : Fin 2 → Fin 2 → ℂ :=
  ![![(Real.cos (θ / 2) : ℂ), -Complex.I * (Real.sin (θ / 2) : ℂ)],
    ![-Complex.I * (Real.sin (θ / 2) : ℂ), (Real.cos (θ / 2) : ℂ)]]

/-- The `RY θ` matrix `[[cos(θ/2), -sin(θ/2)], [sin(θ/2), cos(θ/2)]]`. -/
def ryMat (θ : ℝ) : Fin 2 → Fin 2 → ℂ :=
  ![![(Real.cos (θ / 2) : ℂ), (-Real.sin (θ / 2) : ℂ)],
    ![(Real.sin (θ / 2) : ℂ), (Real.cos (θ / 2) : ℂ)]]

/-- The `RZ θ` matrix `diag(exp(-iθ/2), exp(iθ/2))`. -/
def rzMat (θ : ℝ) : Fin 2 → Fin 2 → ℂ :=
  ![![Complex.exp (-(θ / 2) * Complex.I), 0],
    ![0, Complex.exp ((θ / 2) * Complex.I)]]

/-- Modelled from the spec: one gate of the fixed random circuit emitted by
`RandomLayers` (whose internals are PennyLane library code, not part of this
repository): a parametrized rotation `RX`/`RY`/`RZ` on one wire, or a `CNOT`
imprimitive gate on a pair of distinct wires. -/
inductive Gate where
  | rx (θ : ℝ) (w : Fin 4)
  | ry (θ : ℝ) (w : Fin 4)
  | rz (θ : ℝ) (w : Fin 4)
  | cnot (c t : Fin 4)

/-- Semantics of one gate on a 4-qubit state. -/
def Gate.apply : Gate → QState → QState
  | .rx θ w, v => applySingle (rxMat θ) w v
  | .ry θ w, v => applySingle (ryMat θ) w v
  | .rz θ w, v => applySingle (rzMat θ) w v
  | .cnot c t, v => applyCNOT c t v

/-- A gate is well formed when its CNOT wires are distinct (PennyLane rejects
a CNOT whose control equals its target). -/
def Gate.wf : Gate → Prop
  | .cnot c t => c ≠ t
  | _ => True

/-- The rotation angle carried by a gate (`0` for a CNOT, which carries no
circuit parameter). -/
def Gate.angle : Gate → ℝ
  | .rx θ _ => θ
  | .ry θ _ => θ
  | .rz θ _ => θ
  | .cnot _ _ => 0

/-- Apply a list of gates in sequence. -/
def applyGates (gs : List Gate) (v : QState) : QState :=
  gs.foldl (fun s g => g.apply s) v

/-- The encoding layer of the circuit:
`for j in range(4): qml.RY(np.pi * phi[j], wires=j)`. -/
def encode (phi : Fin 4 → ℝ) (v : QState) : QState :=
  (List.finRange 4).foldl (fun s j => applySingle (ryMat (Real.pi * phi j)) j s) v

/-- Expectation value of `PauliZ` on wire `w`: `Σ_f (±1) · |v f|²` with sign
`+1` when bit `w` of the basis state is `0`. -/
def expvalZ (w : Fin 4) (v : QState) : ℝ :=
  ∑ f : Fin 4 → Fin 2, (if f w = 0 then (1 : ℝ) else -1) * Complex.normSq (v f)

/-- The qnode `circuit(phi)`: encode the four inputs, run the random-layer
gates, and measure `⟨PauliZ(j)⟩` for `j = 0..3`. -/
def circuit (gates : List Gate) (phi : Fin 4 → ℝ) : Fin 4 → ℝ :=
  fun q => expvalZ q (applyGates gates (encode phi ground))

/-- Squared ℓ² norm of a 4-qubit state. -/
def stateNorm2 (v : QState) : ℝ :=
  ∑ f : Fin 4 → Fin 2, Complex.normSq (v f)

/-- Column-orthonormality of a 2×2 matrix (`U† U = I`), spelled entrywise. -/
def unitary2 (U : Fin 2 → Fin 2 → ℂ) : Prop :=
  conj (U 0 0) * U 0 0 + conj (U 1 0) * U 1 0 = 1 ∧
  conj (U 0 1) * U 0 1 + conj (U 1 1) * U 1 1 = 1 ∧
  conj (U 0 0) * U 0 1 + conj (U 1 0) * U 1 1 = 0 ∧
  conj (U 0 1) * U 0 0 + conj (U 1 1) * U 1 0 = 0

/-! ## Images and the `quanv` transform -/

/-- A numpy image array: shape `(H, W, C)` plus the pixel values. -/
structure Image where
  H : ℕ
  W : ℕ
  C : ℕ
  pix : ℕ → ℕ → ℕ → ℝ

/-- Bounds-checked numpy read `image[j, k, c]`; an out-of-range index raises
`IndexError`, modelled as `none`. -/
def getPixel (img : Image) (j k c : ℕ) : Option ℝ :=
  if j < img.H ∧ k < img.W ∧ c < img.C then some (img.pix j k c) else none

/-- The output array `np.zeros((14, 14, 4))` of `quanv`, as a function type:
14×14 output pixels with 4 channels. -/
abbrev FeatureTensor := Fin 14 → Fin 14 → Fin 4 → ℝ

/-- The four pixel values of the 2×2 patch with top-left corner `(j, k)`,
in the exact order the source builds the list fed to `circuit`:
`image[j,k,0], image[j,k+1,0], image[j+1,k,0], image[j+1,k+1,0]`. -/
def patchPhi (img : Image) (j k : ℕ) : Fin 4 → ℝ :=
  ![img.pix j k 0, img.pix j (k + 1) 0, img.pix (j + 1) k 0, img.pix (j + 1) (k + 1) 0]

/-- The four bounds-checked reads of the patch at `(j, k)`, in source order;
fails as soon as one read is out of range. -/
def patchInputs (img : Image) (j k : ℕ) : Option (Fin 4 → ℝ) := do
  let a ← getPixel img j k 0
  let b ← getPixel img j (k + 1) 0
  let c ← getPixel img (j + 1) k 0
  let d ← getPixel img (j + 1) (k + 1) 0
  pure ![a, b, c, d]

/-- One iteration of the double loop of `quanv`: read the 2×2 patch at
`jk = (j, k)` from the image, run the circuit on it, and write the four
results into channels `0..3` of output pixel `(j / 2, k / 2)`. The image
component of the state is only read, never written. -/
def quanvStep (gates : List Gate) (st : Image × FeatureTensor) (jk : ℕ × ℕ) :
    Option (Image × FeatureTensor) :=
  (patchInputs st.1 jk.1 jk.2).map fun phi =>
    (st.1, fun r s c =>
      if r.val = jk.1 / 2 ∧ s.val = jk.2 / 2 then circuit gates phi c else st.2 r s c)

/-- The loop coordinates of `quanv`: `(j, k)` for `j in range(0, 28, 2)` and
`k in range(0, 28, 2)`, in loop order. -/
def patchCoords : List (ℕ × ℕ) :=
  ((List.range 14).map fun i => 2 * i).flatMap fun j =>
    ((List.range 14).map fun i => 2 * i).map fun k => (j, k)

/-- The body of `quanv` as a fold: start from the all-zero output tensor and
run every loop iteration in order, keeping the input image alongside. -/
def quanvFold (gates : List Gate) (img : Image) : Option (Image × FeatureTensor) :=
  patchCoords.foldlM (quanvStep gates) (img, fun _ _ _ => 0)

/-- `quanv(image)`: the returned output tensor (or failure, when some pixel
read of the loop is out of range). -/
def quanv (gates : List Gate) (img : Image) : Option FeatureTensor :=
  (quanvFold gates img).map Prod.snd

/-! ## The preprocessing driver -/

/-- The preprocessing loop over a batch:
`q_images = []; for img in images: q_images.append(quanv(img))`. -/
def preprocessBatch (gates : List Gate) (imgs : List Image) : List (Option FeatureTensor) :=
  imgs.foldl (fun acc im => acc ++ [quanv gates im]) []

/-- The data saving folder of the script. -/
def SAVE_PATH : String := "my_path/"

/-- Path of the cached train features, `SAVE_PATH + "q_train_images.npy"`. -/
def qTrainPath : String := SAVE_PATH ++ "q_train_images.npy"

/-- Path of the cached test features, `SAVE_PATH + "q_test_images.npy"`. -/
def qTestPath : String := SAVE_PATH ++ "q_test_images.npy"

/-- The file system seen by `np.save` / `np.load`: blobs keyed by path. -/
abbrev Disk := String → Option (List (Option FeatureTensor))

/-- `np.load(path)`: return the stored blob, or raise `FileNotFoundError`
naming the missing path (the numpy behaviour on a missing file). -/
def npLoad (disk : Disk) (path : String) : Except String (List (Option FeatureTensor)) :=
  match disk path with
  | some a => Except.ok a
  | none => Except.error ("FileNotFoundError: No such file or directory: " ++ path)

/-- `np.save(path, data)`: store the blob at the path. -/
def npSave (disk : Disk) (path : String) (data : List (Option FeatureTensor)) : Disk :=
  fun p => if p = path then some data else disk p

/-- Lines 218–240 of the script: when `PREPROCESS` is true, recompute both
feature batches and save them; then, unconditionally, load both cache files. -/
def preprocessAndLoad (preprocess : Bool) (gates : List Gate) (train test : List Image)
    (disk0 : Disk) :
    Except String (List (Option FeatureTensor) × List (Option FeatureTensor)) :=
  let disk1 := if preprocess then
      npSave (npSave disk0 qTrainPath (preprocessBatch gates train)) qTestPath
        (preprocessBatch gates test)
    else disk0
  match npLoad disk1 qTrainPath with
  | Except.error e => Except.error e
  | Except.ok t =>
    match npLoad disk1 qTestPath with
    | Except.error e => Except.error e
    | Except.ok u => Except.ok (t, u)

/-! ## Concrete images used as witnesses and counterexamples -/

/-- The uniform all-zero 28×28×1 image. -/
def img28zero : Image := ⟨28, 28, 1, fun _ _ _ => 0⟩

/-- The uniform all-zero 4×4×1 image of the spec's concrete scenario. -/
def img4zero : Image := ⟨4, 4, 1, fun _ _ _ => 0⟩

/-- A uniform all-zero 6×6×1 image (even dimensions, smaller than 28). -/
def img6zero : Image := ⟨6, 6, 1, fun _ _ _ => 0⟩

/-- A uniform all-zero 29×29×1 image (odd dimensions, larger than 28). -/
def img29zero : Image := ⟨29, 29, 1, fun _ _ _ => 0⟩

/-- A 30×30×1 image that is zero on the top-left 28×28 region and `5`
outside it. -/
def img30mixed : Image :=
  ⟨30, 30, 1, fun j k _ => if j < 28 ∧ k < 28 then 0 else 5⟩

/-- A 28×28×1 image that is zero everywhere except pixel `(27, 27)`. -/
def img28spot : Image :=
  ⟨28, 28, 1, fun j k _ => if j = 27 ∧ k = 27 then 1 else 0⟩

/-- The empty file system: no cache file exists. -/
def emptyDisk : Disk := fun _ => none

/-- A uniform all-zero 27×28×1 image (odd height, smaller than 28). -/
def img27zero : Image := ⟨27, 28, 1, fun _ _ _ => 0⟩

/-- The tensor that `quanv` computes when every pixel read is in range:
cell `(r, s, c)` holds output channel `c` of the circuit run on the patch
whose top-left corner is `(2r, 2s)`. -/
def quanvOut (gates : List Gate) (img : Image) : FeatureTensor :=
  fun r s c => circuit gates (patchPhi img (2 * r.val) (2 * s.val)) c

/-- The error message `np.load` produces when the train cache file is
missing. -/
def fnfTrainMsg : String :=
  "FileNotFoundError: No such file or directory: " ++ qTrainPath

end

open ComplexConjugate

/-! ## Reads of a patch: success and failure -/

theorem patchInputs_of_bounds (img : Image) (j k : ℕ) (h1 : j + 1 < img.H)
    (h2 : k + 1 < img.W) (h3 : 0 < img.C) :
    patchInputs img j k = some (patchPhi img j k) := by
  have hj : j < img.H := by omega
  have hk : k < img.W := by omega
  simp [patchInputs, getPixel, patchPhi, hj, hk, h1, h2, h3]

theorem patchInputs_eq_none (img : Image) (j k : ℕ)
    (h : ¬(j + 1 < img.H ∧ k + 1 < img.W ∧ 0 < img.C)) :
    patchInputs img j k = none := by
  by_cases c1 : j < img.H ∧ k < img.W ∧ 0 < img.C <;>
    by_cases c2 : j < img.H ∧ k + 1 < img.W ∧ 0 < img.C <;>
    by_cases c3 : j + 1 < img.H ∧ k < img.W ∧ 0 < img.C <;>
    by_cases c4 : j + 1 < img.H ∧ k + 1 < img.W ∧ 0 < img.C <;>
    simp [patchInputs, getPixel, c1, c2, c3, c4] <;>
    omega

/-! ## The fold underlying `quanv` -/

theorem foldlM_quanvStep_eq (gates : List Gate) (img : Image) (L : List (ℕ × ℕ)) :
    ∀ out0 : FeatureTensor,
      (∀ p ∈ L, p.1 % 2 = 0 ∧ p.2 % 2 = 0 ∧ p.1 + 1 < img.H ∧ p.2 + 1 < img.W ∧ 0 < img.C) →
      L.foldlM (quanvStep gates) (img, out0) =
        some (img, fun r s c =>
          if (2 * r.val, 2 * s.val) ∈ L then
            circuit gates (patchPhi img (2 * r.val) (2 * s.val)) c
          else out0 r s c) := by
  induction L with
  | nil =>
    intro out0 _
    simp
  | cons p L ih =>
    obtain ⟨j, k⟩ := p
    intro out0 hL
    obtain ⟨hj2, hk2, hjH, hkW, hC⟩ := hL (j, k) (List.mem_cons_self _ _)
    have hstep : quanvStep gates (img, out0) (j, k) =
        some (img, fun r s c =>
          if r.val = j / 2 ∧ s.val = k / 2 then circuit gates (patchPhi img j k) c
          else out0 r s c) := by
      simp [quanvStep, patchInputs_of_bounds img j k hjH hkW hC]
    rw [List.foldlM_cons, hstep]
    simp only [Option.bind_eq_bind', Option.some_bind']
    rw [ih _ (fun q hq => hL q (List.mem_cons_of_mem _ hq))]
    refine congrArg some (congrArg (Prod.mk img) ?_)
    funext r s c
    by_cases hmem : (2 * r.val, 2 * s.val) ∈ L
    · rw [if_pos hmem, if_pos (List.mem_cons_of_mem _ hmem)]
    · rw [if_neg hmem]
      by_cases hcell : r.val = j / 2 ∧ s.val = k / 2
      · obtain ⟨hr, hs⟩ := hcell
        have hj : 2 * r.val = j := by omega
        have hk : 2 * s.val = k := by omega
        have hmem' : (2 * r.val, 2 * s.val) ∈ (j, k) :: L := by
          rw [hj, hk]; exact List.mem_cons_self _ _
        rw [if_pos ⟨hr, hs⟩, if_pos hmem', hj, hk]
      · have hmem' : (2 * r.val, 2 * s.val) ∉ (j, k) :: L := by
          intro hm
          rcases List.mem_cons.mp hm with he | hm2
          · obtain ⟨he1, he2⟩ := Prod.mk.injEq .. ▸ he
            exact hcell ⟨by omega, by omega⟩
          · exact hmem hm2
        rw [if_neg hcell, if_neg hmem']

theorem foldlM_quanvStep_none (gates : List Gate) (img : Image) (L : List (ℕ × ℕ)) :
    ∀ out0 : FeatureTensor, (∃ p ∈ L, patchInputs img p.1 p.2 = none) →
      L.foldlM (quanvStep gates) (img, out0) = none := by
  induction L with
  | nil =>
    intro out0 h
    simp at h
  | cons p L ih =>
    intro out0 hfail
    rw [List.foldlM_cons]
    by_cases hp : patchInputs img p.1 p.2 = none
    · simp [quanvStep, hp]
    · rcases Option.ne_none_iff_exists'.mp hp with ⟨phi, hphi⟩
      simp only [quanvStep, hphi, Option.map_some', Option.bind_eq_bind', Option.some_bind']
      apply ih
      rcases hfail with ⟨q, hq, hnone⟩
      rcases List.mem_cons.mp hq with rfl | hqL
      · exact absurd hnone hp
      · exact ⟨q, hqL, hnone⟩

theorem mem_patchCoords (r s : Fin 14) : (2 * r.val, 2 * s.val) ∈ patchCoords := by
  refine List.mem_flatMap.mpr ⟨2 * r.val, List.mem_map.mpr ⟨r.val, List.mem_range.mpr r.isLt, rfl⟩, ?_⟩
  exact List.mem_map.mpr ⟨2 * s.val, List.mem_map.mpr ⟨s.val, List.mem_range.mpr s.isLt, rfl⟩, rfl⟩

theorem patchCoords_bounds (img : Image) (hH : 28 ≤ img.H) (hW : 28 ≤ img.W)
    (hC : 0 < img.C) :
    ∀ p ∈ patchCoords,
      p.1 % 2 = 0 ∧ p.2 % 2 = 0 ∧ p.1 + 1 < img.H ∧ p.2 + 1 < img.W ∧ 0 < img.C := by
  intro p hp
  simp only [patchCoords, List.mem_flatMap, List.mem_map, List.mem_range] at hp
  obtain ⟨j, ⟨a, ha, rfl⟩, k, ⟨b, hb, rfl⟩, rfl⟩ := hp
  refine ⟨by omega, by omega, by omega, by omega, hC⟩

theorem quanvFold_eq (gates : List Gate) (img : Image) (hH : 28 ≤ img.H)
    (hW : 28 ≤ img.W) (hC : 0 < img.C) :
    quanvFold gates img = some (img, quanvOut gates img) := by
  rw [quanvFold, foldlM_quanvStep_eq gates img patchCoords _ (patchCoords_bounds img hH hW hC)]
  refine congrArg some (congrArg (Prod.mk img) ?_)
  funext r s c
  rw [if_pos (mem_patchCoords r s)]
  rfl

theorem quanv_eq (gates : List Gate) (img : Image) (hH : 28 ≤ img.H)
    (hW : 28 ≤ img.W) (hC : 0 < img.C) :
    quanv gates img = some (quanvOut gates img) := by
  rw [quanv, quanvFold_eq gates img hH hW hC]
  rfl

theorem quanv_eq_none (gates : List Gate) (img : Image)
    (h : img.H < 28 ∨ img.W < 28 ∨ img.C = 0) : quanv gates img = none := by
  have hmem : ((26 : ℕ), (26 : ℕ)) ∈ patchCoords := by decide
  have hfail : patchInputs img 26 26 = none := patchInputs_eq_none img 26 26 (by omega)
  rw [quanv, quanvFold, foldlM_quanvStep_none gates img patchCoords _ ⟨(26, 26), hmem, hfail⟩]
  rfl

theorem bounds_of_quanv_some (gates : List Gate) (img : Image) (out : FeatureTensor)
    (h : quanv gates img = some out) : 28 ≤ img.H ∧ 28 ≤ img.W ∧ 0 < img.C := by
  by_contra hc
  rw [quanv_eq_none gates img (by omega)] at h
  exact Option.noConfusion h

theorem quanvFold_fst (gates : List Gate) (L : List (ℕ × ℕ)) :
    ∀ (st st' : Image × FeatureTensor), L.foldlM (quanvStep gates) st = some st' →
      st'.1 = st.1 := by
  induction L with
  | nil =>
    intro st st' hf
    simp only [List.foldlM_nil] at hf
    obtain rfl : st = st' := by injection hf
    rfl
  | cons p L ih =>
    intro st st' hf
    rw [List.foldlM_cons] at hf
    cases hstep : quanvStep gates st p with
    | none => rw [hstep] at hf; simp at hf
    | some st1 =>
      rw [hstep] at hf
      simp only [Option.bind_eq_bind', Option.some_bind'] at hf
      have h1 : st1.1 = st.1 := by
        simp only [quanvStep] at hstep
        cases hphi : patchInputs st.1 p.1 p.2 with
        | none => rw [hphi] at hstep; simp at hstep
        | some phi =>
          rw [hphi, Option.map_some'] at hstep
          obtain rfl : _ = st1 := by injection hstep
          rfl
      exact (ih st1 st' hf).trans h1

/-! ## Norm preservation of the circuit gates -/

theorem stateNorm2_ground : stateNorm2 ground = 1 := by
  rw [stateNorm2, Finset.sum_eq_single (fun _ => (0 : Fin 2))]
  · simp [ground]
  · intro f _ hf
    simp [ground, hf]
  · intro hmem
    exact absurd (Finset.mem_univ _) hmem

theorem sum_normSq_mulVec2 (U : Fin 2 → Fin 2 → ℂ) (hU : unitary2 U) (a : Fin 2 → ℂ) :
    ∑ b : Fin 2, Complex.normSq (∑ x : Fin 2, U b x * a x) =
      ∑ x : Fin 2, Complex.normSq (a x) := by
  obtain ⟨h00, h11, h01, h10⟩ := hU
  have key : ∑ b : Fin 2, ((∑ x : Fin 2, U b x * a x) * conj (∑ x : Fin 2, U b x * a x)) =
      ∑ x : Fin 2, (a x * conj (a x)) := by
    simp only [Fin.sum_univ_two, map_add, map_mul]
    linear_combination (a 0 * conj (a 0)) * h00 + (a 1 * conj (a 1)) * h11 +
      (a 1 * conj (a 0)) * h01 + (a 0 * conj (a 1)) * h10
  have cast1 : ((∑ b : Fin 2, Complex.normSq (∑ x : Fin 2, U b x * a x) : ℝ) : ℂ) =
      ((∑ x : Fin 2, Complex.normSq (a x) : ℝ) : ℂ) := by
    push_cast
    simp only [← Complex.mul_conj]
    exact key
  exact_mod_cast cast1

theorem unitary2_ryMat (θ : ℝ) : unitary2 (ryMat θ) := by
  have hcs : (Real.cos (θ / 2) : ℂ) ^ 2 + (Real.sin (θ / 2) : ℂ) ^ 2 = 1 := by
    norm_cast
    exact Real.cos_sq_add_sin_sq (θ / 2)
  refine ⟨?_, ?_, ?_, ?_⟩ <;>
    simp only [ryMat, Matrix.cons_val_zero, Matrix.cons_val_one, Matrix.head_cons,
      map_neg, Complex.conj_ofReal]
  · linear_combination hcs
  · linear_combination hcs
  · ring
  · ring

theorem unitary2_rxMat (θ : ℝ) : unitary2 (rxMat θ) := by
  have hcs : (Real.cos (θ / 2) : ℂ) ^ 2 + (Real.sin (θ / 2) : ℂ) ^ 2 = 1 := by
    norm_cast
    exact Real.cos_sq_add_sin_sq (θ / 2)
  have hI : Complex.I * Complex.I = -1 := Complex.I_mul_I
  refine ⟨?_, ?_, ?_, ?_⟩ <;>
    simp only [rxMat, Matrix.cons_val_zero, Matrix.cons_val_one, Matrix.head_cons,
      map_mul, map_neg, Complex.conj_ofReal, Complex.conj_I]
  · linear_combination hcs - ((Real.sin (θ / 2) : ℂ) * (Real.sin (θ / 2) : ℂ)) * hI
  · linear_combination hcs - ((Real.sin (θ / 2) : ℂ) * (Real.sin (θ / 2) : ℂ)) * hI
  · ring
  · ring

theorem conj_exp_mul_I (x : ℝ) :
    conj (Complex.exp ((x : ℂ) * Complex.I)) * Complex.exp ((x : ℂ) * Complex.I) = 1 := by
  have h1 : (x : ℂ) * -Complex.I + (x : ℂ) * Complex.I = 0 := by ring
  rw [← Complex.exp_conj, map_mul, Complex.conj_ofReal, Complex.conj_I, ← Complex.exp_add,
    h1, Complex.exp_zero]

theorem unitary2_rzMat (θ : ℝ) : unitary2 (rzMat θ) := by
  refine ⟨?_, ?_, ?_, ?_⟩ <;>
    simp only [rzMat, Matrix.cons_val_zero, Matrix.cons_val_one, Matrix.head_cons,
      map_zero, mul_zero, zero_mul, add_zero, zero_add]
  · exact_mod_cast conj_exp_mul_I (-(θ / 2))
  · exact_mod_cast conj_exp_mul_I (θ / 2)

theorem stateNorm2_applySingle (U : Fin 2 → Fin 2 → ℂ) (hU : unitary2 U) (w : Fin 4)
    (v : QState) : stateNorm2 (applySingle U w v) = stateNorm2 v := by
  classical
  set e := Equiv.funSplitAt w (Fin 2) with he
  have hval : ∀ (b : Fin 2) (g : { j : Fin 4 // j ≠ w } → Fin 2), e.symm (b, g) w = b := by
    intro b g
    simp [he, Equiv.funSplitAt, Equiv.piSplitAt]
  have hupd : ∀ (b x : Fin 2) (g : { j : Fin 4 // j ≠ w } → Fin 2),
      Function.update (e.symm (b, g)) w x = e.symm (x, g) := by
    intro b x g
    funext j
    by_cases hj : j = w
    · subst hj
      simp [Function.update_same, he, Equiv.funSplitAt, Equiv.piSplitAt]
    · simp [Function.update_noteq hj, he, Equiv.funSplitAt, Equiv.piSplitAt, hj]
  have hmain : ∀ F : (Fin 4 → Fin 2) → ℝ,
      ∑ f, F f = ∑ g : { j : Fin 4 // j ≠ w } → Fin 2, ∑ b : Fin 2, F (e.symm (b, g)) := by
    intro F
    rw [← Equiv.sum_comp e.symm F, Fintype.sum_prod_type]
    exact Finset.sum_comm
  have hA : stateNorm2 (applySingle U w v) =
      ∑ g : { j : Fin 4 // j ≠ w } → Fin 2, ∑ b : Fin 2,
        Complex.normSq (applySingle U w v (e.symm (b, g))) := hmain _
  have hB : stateNorm2 v =
      ∑ g : { j : Fin 4 // j ≠ w } → Fin 2, ∑ b : Fin 2,
        Complex.normSq (v (e.symm (b, g))) := hmain _
  rw [hA, hB]
  refine Finset.sum_congr rfl ?_
  intro g _
  have happ : ∀ b : Fin 2,
      applySingle U w v (e.symm (b, g)) = ∑ x : Fin 2, U b x * v (e.symm (x, g)) := by
    intro b
    simp only [applySingle, hval]
    refine Finset.sum_congr rfl ?_
    intro x _
    rw [hupd]
  calc ∑ b : Fin 2, Complex.normSq (applySingle U w v (e.symm (b, g)))
      = ∑ b : Fin 2, Complex.normSq (∑ x : Fin 2, U b x * v (e.symm (x, g))) :=
        Finset.sum_congr rfl (fun b _ => congrArg Complex.normSq (happ b))
    _ = ∑ x : Fin 2, Complex.normSq (v (e.symm (x, g))) :=
        sum_normSq_mulVec2 U hU (fun x => v (e.symm (x, g)))

theorem fin2_add_add_cancel : ∀ a b : Fin 2, a + b + b = a := by decide

theorem stateNorm2_applyCNOT (c t : Fin 4) (h : c ≠ t) (v : QState) :
    stateNorm2 (applyCNOT c t v) = stateNorm2 v := by
  have hinv : Function.Involutive
      (fun f : Fin 4 → Fin 2 => Function.update f t (f t + f c)) := by
    intro f
    show Function.update (Function.update f t (f t + f c)) t
        ((Function.update f t (f t + f c)) t + (Function.update f t (f t + f c)) c) = f
    rw [Function.update_same, Function.update_noteq h, Function.update_idem,
      fin2_add_add_cancel (f t) (f c)]
    exact Function.update_eq_self t f
  have hsum := Equiv.sum_comp (hinv.toPerm _) (fun f => Complex.normSq (v f))
  simpa [stateNorm2, applyCNOT, Function.Involutive.coe_toPerm] using hsum

theorem stateNorm2_gateApply (g : Gate) (hg : g.wf) (v : QState) :
    stateNorm2 (g.apply v) = stateNorm2 v := by
  cases g with
  | rx θ w => exact stateNorm2_applySingle _ (unitary2_rxMat θ) w v
  | ry θ w => exact stateNorm2_applySingle _ (unitary2_ryMat θ) w v
  | rz θ w => exact stateNorm2_applySingle _ (unitary2_rzMat θ) w v
  | cnot c t => exact stateNorm2_applyCNOT c t hg v

theorem stateNorm2_applyGates (gs : List Gate) (h : ∀ g ∈ gs, g.wf) (v : QState) :
    stateNorm2 (applyGates gs v) = stateNorm2 v := by
  induction gs generalizing v with
  | nil => rfl
  | cons g gs ih =>
    rw [applyGates, List.foldl_cons]
    rw [show List.foldl (fun s g => Gate.apply g s) (g.apply v) gs
        = applyGates gs (g.apply v) from rfl]
    rw [ih (fun x hx => h x (List.mem_cons_of_mem g hx)) (g.apply v)]
    exact stateNorm2_gateApply g (h g (List.mem_cons_self g gs)) v

theorem stateNorm2_encode (phi : Fin 4 → ℝ) (v : QState) :
    stateNorm2 (encode phi v) = stateNorm2 v := by
  have hstep : ∀ (l : List (Fin 4)) (u : QState),
      stateNorm2 (l.foldl (fun s j => applySingle (ryMat (Real.pi * phi j)) j s) u) =
        stateNorm2 u := by
    intro l
    induction l with
    | nil => intro u; rfl
    | cons j l ih =>
      intro u
      rw [List.foldl_cons, ih]
      exact stateNorm2_applySingle _ (unitary2_ryMat _) j u
  exact hstep _ v

theorem expvalZ_bounds (w : Fin 4) (v : QState) :
    -stateNorm2 v ≤ expvalZ w v ∧ expvalZ w v ≤ stateNorm2 v := by
  constructor
  · rw [expvalZ, stateNorm2, ← Finset.sum_neg_distrib]
    refine Finset.sum_le_sum fun f _ => ?_
    have h0 := Complex.normSq_nonneg (v f)
    by_cases hf : f w = 0
    · rw [if_pos hf]; linarith
    · rw [if_neg hf]; linarith
  · rw [expvalZ, stateNorm2]
    refine Finset.sum_le_sum fun f _ => ?_
    have h0 := Complex.normSq_nonneg (v f)
    by_cases hf : f w = 0
    · rw [if_pos hf]; linarith
    · rw [if_neg hf]; linarith

theorem circuit_bounded (gates : List Gate) (hwf : ∀ g ∈ gates, g.wf)
    (phi : Fin 4 → ℝ) (q : Fin 4) :
    -1 ≤ circuit gates phi q ∧ circuit gates phi q ≤ 1 := by
  have hnorm : stateNorm2 (applyGates gates (encode phi ground)) = 1 := by
    rw [stateNorm2_applyGates gates hwf, stateNorm2_encode, stateNorm2_ground]
  have h := expvalZ_bounds q (applyGates gates (encode phi ground))
  rw [hnorm] at h
  exact h

/-! ## The circuit on all-zero parameters and inputs -/

theorem applySingle_eq_self (U : Fin 2 → Fin 2 → ℂ)
    (h00 : U 0 0 = 1) (h01 : U 0 1 = 0) (h10 : U 1 0 = 0) (h11 : U 1 1 = 1)
    (w : Fin 4) (v : QState) : applySingle U w v = v := by
  funext f
  have hf : f w = 0 ∨ f w = 1 := by omega
  simp only [applySingle, Fin.sum_univ_two]
  rcases hf with hf | hf
  · rw [hf, h00, h01, one_mul, zero_mul, add_zero, ← hf, Function.update_eq_self]
  · rw [hf, h10, h11, zero_mul, one_mul, zero_add, ← hf, Function.update_eq_self]

theorem ryMat_zero_applied (w : Fin 4) (v : QState) : applySingle (ryMat 0) w v = v := by
  apply applySingle_eq_self <;>
    norm_num [ryMat, Real.cos_zero, Real.sin_zero]

theorem rxMat_zero_applied (w : Fin 4) (v : QState) : applySingle (rxMat 0) w v = v := by
  apply applySingle_eq_self <;>
    norm_num [rxMat, Real.cos_zero, Real.sin_zero]

theorem rzMat_zero_applied (w : Fin 4) (v : QState) : applySingle (rzMat 0) w v = v := by
  apply applySingle_eq_self <;>
    norm_num [rzMat, Complex.exp_zero]

theorem encode_zero (phi : Fin 4 → ℝ) (hphi : ∀ j, phi j = 0) (v : QState) :
    encode phi v = v := by
  have h : ∀ j : Fin 4, ryMat (Real.pi * phi j) = ryMat 0 := by
    intro j
    rw [hphi j, mul_zero]
  rw [encode, show List.finRange 4 = [0, 1, 2, 3] from rfl]
  simp only [List.foldl_cons, List.foldl_nil, h, ryMat_zero_applied]

theorem update_add_eq_zero_iff (c t : Fin 4) (h : c ≠ t) (f : Fin 4 → Fin 2) :
    Function.update f t (f t + f c) = (fun _ => 0) ↔ f = fun _ => 0 := by
  constructor
  · intro hupd
    have hj := congrFun hupd
    funext j
    by_cases hjt : j = t
    · subst hjt
      have hc : f c = 0 := by
        have h2 := hj c
        rwa [Function.update_noteq h] at h2
      have ht := hj j
      rw [Function.update_same] at ht
      rw [hc, add_zero] at ht
      exact ht
    · have h2 := hj j
      rwa [Function.update_noteq hjt] at h2
  · intro hf
    subst hf
    funext j
    by_cases hjt : j = t
    · subst hjt
      rw [Function.update_same]
      rfl
    · rw [Function.update_noteq hjt]

theorem applyCNOT_ground (c t : Fin 4) (h : c ≠ t) : applyCNOT c t ground = ground := by
  funext f
  show ground (Function.update f t (f t + f c)) = ground f
  simp only [ground]
  rw [if_congr (update_add_eq_zero_iff c t h f) rfl rfl]

theorem applyGates_zero_ground (gs : List Gate) (hwf : ∀ g ∈ gs, g.wf)
    (hz : ∀ g ∈ gs, g.angle = 0) : applyGates gs ground = ground := by
  induction gs with
  | nil => rfl
  | cons g gs ih =>
    rw [applyGates, List.foldl_cons]
    have hg : g.apply ground = ground := by
      cases g with
      | rx θ w =>
        have hθ : θ = 0 := hz _ (List.mem_cons_self _ _)
        subst hθ
        exact rxMat_zero_applied w ground
      | ry θ w =>
        have hθ : θ = 0 := hz _ (List.mem_cons_self _ _)
        subst hθ
        exact ryMat_zero_applied w ground
      | rz θ w =>
        have hθ : θ = 0 := hz _ (List.mem_cons_self _ _)
        subst hθ
        exact rzMat_zero_applied w ground
      | cnot a b => exact applyCNOT_ground a b (hwf _ (List.mem_cons_self _ _))
    rw [show List.foldl (fun s g => Gate.apply g s) (g.apply ground) gs
        = applyGates gs (g.apply ground) from rfl, hg]
    exact ih (fun x hx => hwf x (List.mem_cons_of_mem _ hx))
      (fun x hx => hz x (List.mem_cons_of_mem _ hx))

theorem expvalZ_ground (w : Fin 4) : expvalZ w ground = 1 := by
  rw [expvalZ, Finset.sum_eq_single (fun _ => (0 : Fin 2))]
  · simp [ground]
  · intro f _ hf
    simp [ground, hf]
  · intro hmem
    exact absurd (Finset.mem_univ _) hmem

theorem circuit_zero (gates : List Gate) (hwf : ∀ g ∈ gates, g.wf)
    (hz : ∀ g ∈ gates, g.angle = 0) (phi : Fin 4 → ℝ) (hphi : ∀ j, phi j = 0)
    (q : Fin 4) : circuit gates phi q = 1 := by
  show expvalZ q (applyGates gates (encode phi ground)) = 1
  rw [encode_zero phi hphi, applyGates_zero_ground gates hwf hz, expvalZ_ground]

/-! ## Claims: C1–C10 -/

/-- C1: for every 28×28×1 image and every top-left patch coordinate (j, k)
with j and k even, `quanv` feeds the circuit the four pixel values at offsets
(0,0), (0,1), (1,0), (1,1) relative to (j, k), in exactly that order, and
writes the circuit's output channel c into output tensor cell (j/2, k/2, c). -/
theorem quanv_feed_order (gates : List Gate) (img : Image)
    (hH : img.H = 28) (hW : img.W = 28) (hC : img.C = 1)
    (j k : ℕ) (hj2 : j % 2 = 0) (hk2 : k % 2 = 0) (hj : j < 28) (hk : k < 28)
    (out : FeatureTensor) (hout : quanv gates img = some out) (c : Fin 4) :
    out ⟨j / 2, by omega⟩ ⟨k / 2, by omega⟩ c =
      circuit gates
        ![img.pix j k 0, img.pix j (k + 1) 0, img.pix (j + 1) k 0, img.pix (j + 1) (k + 1) 0]
        c := by
  rw [quanv_eq gates img (by omega) (by omega) (by omega)] at hout
  injection hout with hout
  subst hout
  show circuit gates (patchPhi img (2 * (j / 2)) (2 * (k / 2))) c = _
  rw [show 2 * (j / 2) = j by omega, show 2 * (k / 2) = k by omega]
  rfl

/-- Witness for C1: the all-zero 28×28 image, patch (2, 4), channel 1. -/
theorem quanv_feed_order_witness :
    quanvOut [] img28zero ⟨1, by omega⟩ ⟨2, by omega⟩ 1 =
      circuit []
        ![img28zero.pix 2 4 0, img28zero.pix 2 5 0,
          img28zero.pix 3 4 0, img28zero.pix 3 5 0] 1 :=
  quanv_feed_order [] img28zero rfl rfl rfl 2 4 rfl rfl (by omega) (by omega)
    (quanvOut [] img28zero) (quanv_eq [] img28zero (by decide) (by decide) (by decide)) 1

/-- C2 counterexample: the all-zero 6×6×1 image has even dimensions ≥ 2, yet
`quanv` raises an IndexError (returns no tensor) instead of returning a
3×3×4 tensor: the loop bounds are hardcoded to 28. -/
theorem quanv_6x6_no_tensor : quanv [] img6zero = none :=
  quanv_eq_none [] img6zero (Or.inl (by decide))

/-- C2 (amended): for an image of shape (28, 28, 1), `quanv` returns a tensor
of the hardcoded shape (14, 14, 4) — which equals (H/2, W/2, 4) only because
H = W = 28; for smaller even dimensions it fails with an index error. -/
theorem quanv_shape_28 (gates : List Gate) (pix : ℕ → ℕ → ℕ → ℝ) :
    quanv gates ⟨28, 28, 1, pix⟩ = some (quanvOut gates ⟨28, 28, 1, pix⟩) :=
  quanv_eq gates _ (Nat.le_refl 28) (Nat.le_refl 28) Nat.one_pos

/-- C3 counterexample: on the uniform all-zero 4×4×1 image with all circuit
parameters 0 (here: no parametrized gates at all), `quanv` does not return a
2×2×4 all-ones tensor; it raises an IndexError and returns no tensor,
because the loop bounds are hardcoded to 28. -/
theorem quanv_4x4_no_tensor : quanv [] img4zero = none :=
  quanv_eq_none [] img4zero (Or.inl (by decide))

/-- C3 (amended): for the uniform all-zero 28×28×1 image and any random-layer
gate list whose rotation angles are all 0 (all CircuitParameters 0), `quanv`
returns the 14×14×4 tensor with every entry equal to +1. -/
theorem quanv_zero_image_all_one (gates : List Gate) (hwf : ∀ g ∈ gates, g.wf)
    (hz : ∀ g ∈ gates, g.angle = 0) :
    quanv gates img28zero = some (fun _ _ _ => 1) := by
  rw [quanv_eq gates img28zero (by decide) (by decide) (by decide)]
  refine congrArg some ?_
  funext r s c
  show circuit gates (patchPhi img28zero (2 * r.val) (2 * s.val)) c = 1
  refine circuit_zero gates hwf hz _ ?_ c
  intro i
  fin_cases i <;> rfl

/-- Witness for C3 (amended): a concrete well-formed zero-angle gate list. -/
theorem quanv_zero_image_all_one_witness :
    quanv [Gate.ry 0 0, Gate.cnot 0 1] img28zero = some (fun _ _ _ => 1) :=
  quanv_zero_image_all_one [Gate.ry 0 0, Gate.cnot 0 1]
    (by intro g hg
        fin_cases hg
        · trivial
        · exact (by decide : (0 : Fin 4) ≠ 1))
    (by intro g hg
        fin_cases hg <;> rfl)

/-- C4: determinism and purity: the preprocessing loop equals an independent
per-image map of `quanv` (no hidden state across images or patches), and
equal inputs give bit-identical outputs. -/
theorem quanv_pure (gates : List Gate) (imgs : List Image) :
    preprocessBatch gates imgs = imgs.map (fun im => quanv gates im) ∧
    ∀ im1 im2 : Image, im1 = im2 → quanv gates im1 = quanv gates im2 := by
  constructor
  · have aux : ∀ (l : List Image) (acc : List (Option FeatureTensor)),
        l.foldl (fun a im => a ++ [quanv gates im]) acc =
          acc ++ l.map (fun im => quanv gates im) := by
      intro l
      induction l with
      | nil =>
        intro acc
        simp
      | cons x xs ih =>
        intro acc
        rw [List.foldl_cons, ih, List.map_cons]
        simp
    simpa using aux imgs []
  · intro im1 im2 h
    rw [h]

/-- Witness for C4 at a concrete one-image batch. -/
theorem quanv_pure_witness :
    preprocessBatch [] [img28zero] = [quanv [] img28zero] ∧
    quanv [] img28zero = quanv [] img28zero :=
  ⟨(quanv_pure [] [img28zero]).1, (quanv_pure [] [img28zero]).2 img28zero img28zero rfl⟩

/-- C5: patch independence: if two images agree on the 2×2 patch with
top-left corner (2r, 2s), the output cells (r, s, c) agree — changing pixels
outside a patch cannot change that patch's output cell. -/
theorem quanv_patch_independence (gates : List Gate) (img img' : Image)
    (hH : 28 ≤ img.H) (hW : 28 ≤ img.W) (hC : 0 < img.C)
    (hH' : 28 ≤ img'.H) (hW' : 28 ≤ img'.W) (hC' : 0 < img'.C)
    (r s : Fin 14)
    (hagree : ∀ dj dk : ℕ, dj < 2 → dk < 2 →
      img.pix (2 * r.val + dj) (2 * s.val + dk) 0 =
        img'.pix (2 * r.val + dj) (2 * s.val + dk) 0)
    (out out' : FeatureTensor)
    (h : quanv gates img = some out) (h' : quanv gates img' = some out')
    (c : Fin 4) : out r s c = out' r s c := by
  rw [quanv_eq gates img hH hW hC] at h
  rw [quanv_eq gates img' hH' hW' hC'] at h'
  injection h with h
  injection h' with h'
  subst h
  subst h'
  show circuit gates (patchPhi img (2 * r.val) (2 * s.val)) c =
    circuit gates (patchPhi img' (2 * r.val) (2 * s.val)) c
  have hphi : patchPhi img (2 * r.val) (2 * s.val) =
      patchPhi img' (2 * r.val) (2 * s.val) := by
    funext i
    fin_cases i
    · show img.pix (2 * r.val) (2 * s.val) 0 = img'.pix (2 * r.val) (2 * s.val) 0
      simpa using hagree 0 0 (by omega) (by omega)
    · show img.pix (2 * r.val) (2 * s.val + 1) 0 = img'.pix (2 * r.val) (2 * s.val + 1) 0
      simpa using hagree 0 1 (by omega) (by omega)
    · show img.pix (2 * r.val + 1) (2 * s.val) 0 = img'.pix (2 * r.val + 1) (2 * s.val) 0
      simpa using hagree 1 0 (by omega) (by omega)
    · show img.pix (2 * r.val + 1) (2 * s.val + 1) 0 =
        img'.pix (2 * r.val + 1) (2 * s.val + 1) 0
      simpa using hagree 1 1 (by omega) (by omega)
  rw [hphi]

/-- Witness for C5: the all-zero image and the image with a spot at (27, 27)
agree on the patch at (0, 0), so output cell (0, 0, 0) agrees. -/
theorem quanv_patch_independence_witness :
    quanvOut [] img28zero 0 0 0 = quanvOut [] img28spot 0 0 0 :=
  quanv_patch_independence [] img28zero img28spot (by decide) (by decide) (by decide)
    (by decide) (by decide) (by decide) 0 0
    (by intro dj dk h1 h2
        have h0 : (0 : Fin 14).val = 0 := rfl
        simp only [img28zero, img28spot, h0]
        rw [if_neg (by omega)])
    (quanvOut [] img28zero) (quanvOut [] img28spot)
    (quanv_eq [] img28zero (by decide) (by decide) (by decide))
    (quanv_eq [] img28spot (by decide) (by decide) (by decide)) 0

/-- C6: every scalar of an output tensor of `quanv` lies in [-1, 1], because
each entry is a PauliZ expectation value of a normalized 4-qubit state. -/
theorem quanv_range (gates : List Gate) (hwf : ∀ g ∈ gates, g.wf)
    (img : Image) (out : FeatureTensor) (h : quanv gates img = some out)
    (r s : Fin 14) (c : Fin 4) : -1 ≤ out r s c ∧ out r s c ≤ 1 := by
  obtain ⟨hH, hW, hC⟩ := bounds_of_quanv_some gates img out h
  rw [quanv_eq gates img hH hW hC] at h
  injection h with h
  subst h
  exact circuit_bounded gates hwf (patchPhi img (2 * r.val) (2 * s.val)) c

/-- Witness for C6 with one CNOT gate on the all-zero image. -/
theorem quanv_range_witness :
    -1 ≤ quanvOut [Gate.cnot 0 1] img28zero 0 0 0 ∧
      quanvOut [Gate.cnot 0 1] img28zero 0 0 0 ≤ 1 :=
  quanv_range [Gate.cnot 0 1]
    (by intro g hg
        fin_cases hg
        exact (by decide : (0 : Fin 4) ≠ 1))
    img28zero (quanvOut [Gate.cnot 0 1] img28zero)
    (quanv_eq [Gate.cnot 0 1] img28zero (by decide) (by decide) (by decide)) 0 0 0

/-- C7: `quanv` has no side effect on the input image: the image component
threaded through the loop state comes out unchanged (the loop writes only
the output tensor). -/
theorem quanv_no_mutation (gates : List Gate) (img : Image)
    (st : Image × FeatureTensor) (h : quanvFold gates img = some st) :
    st.1 = img :=
  quanvFold_fst gates patchCoords (img, fun _ _ _ => 0) st h

/-- Witness for C7 at the all-zero 28×28 image. -/
theorem quanv_no_mutation_witness :
    (img28zero, quanvOut [] img28zero).1 = img28zero :=
  quanv_no_mutation [] img28zero (img28zero, quanvOut [] img28zero)
    (quanvFold_eq [] img28zero (by decide) (by decide) (by decide))

/-- C8 counterexample: the all-zero 29×29×1 image has odd dimensions, yet
`quanv` succeeds and returns a tensor instead of failing fast: row and
column 28 are silently ignored. -/
theorem quanv_odd29_succeeds : quanv [] img29zero = some (quanvOut [] img29zero) :=
  quanv_eq [] img29zero (by decide) (by decide) (by decide)

/-- C8 (amended): `quanv` fails fast (with an IndexError, not a truncated
result) exactly when the image is too small for the hardcoded loop: height
or width below 28, or channel count 0. Odd dimensions at least 29 are not
rejected but silently cropped to the top-left 28×28 region. -/
theorem quanv_dimension_error (gates : List Gate) (img : Image)
    (h : img.H < 28 ∨ img.W < 28 ∨ img.C = 0) : quanv gates img = none :=
  quanv_eq_none gates img h

/-- Witness for C8 (amended): odd height 27 < 28 fails. -/
theorem quanv_dimension_error_witness : quanv [] img27zero = none :=
  quanv_dimension_error [] img27zero (Or.inl (by decide))

/-- C9 counterexample: with PREPROCESS = False and no cache file on disk,
the program fails with np.load's FileNotFoundError naming the missing path;
the diagnostic is not the claimed "cache not found, set preprocess=true"
message. -/
theorem cache_miss_message_counterexample :
    preprocessAndLoad false [] [] [] emptyDisk = Except.error fnfTrainMsg ∧
    fnfTrainMsg ≠ "cache not found, set preprocess=true" := by
  constructor
  · rfl
  · decide

/-- C9 (amended): when preprocessing is disabled and the train cache file is
missing, the program fails with np.load's FileNotFoundError naming the
missing path (rather than silently producing an empty or garbage tensor),
but the diagnostic does not mention setting preprocess=true. -/
theorem cache_miss_fails (gates : List Gate) (train test : List Image) (disk : Disk)
    (h : disk qTrainPath = none) :
    preprocessAndLoad false gates train test disk = Except.error fnfTrainMsg := by
  have hload : npLoad disk qTrainPath = Except.error fnfTrainMsg := by
    unfold npLoad
    rw [h]
    rfl
  simp only [preprocessAndLoad]
  rw [if_neg Bool.false_ne_true, hload]

/-- Witness for C9 (amended): the empty file system. -/
theorem cache_miss_fails_witness :
    preprocessAndLoad false [] [] [] emptyDisk = Except.error fnfTrainMsg :=
  cache_miss_fails [] [] [] emptyDisk rfl

/-- C10: for any image with height and width at least 28 (and at least one
channel), `quanv` succeeds and returns the 14×14×4 tensor computed only from
the top-left 28×28 region: pixels beyond row 27 and column 27 are silently
ignored, since the loop bounds and output shape are hardcoded. -/
theorem quanv_crop28 (gates : List Gate) (img img' : Image)
    (hH : 28 ≤ img.H) (hW : 28 ≤ img.W) (hC : 0 < img.C)
    (hH' : 28 ≤ img'.H) (hW' : 28 ≤ img'.W) (hC' : 0 < img'.C)
    (hagree : ∀ j k : ℕ, j < 28 → k < 28 → img.pix j k 0 = img'.pix j k 0) :
    quanv gates img = some (quanvOut gates img) ∧
    quanv gates img = quanv gates img' := by
  refine ⟨quanv_eq gates img hH hW hC, ?_⟩
  rw [quanv_eq gates img hH hW hC, quanv_eq gates img' hH' hW' hC']
  refine congrArg some ?_
  funext r s c
  show circuit gates (patchPhi img (2 * r.val) (2 * s.val)) c =
    circuit gates (patchPhi img' (2 * r.val) (2 * s.val)) c
  have hr := r.isLt
  have hs := s.isLt
  have hphi : patchPhi img (2 * r.val) (2 * s.val) =
      patchPhi img' (2 * r.val) (2 * s.val) := by
    funext i
    fin_cases i
    · show img.pix (2 * r.val) (2 * s.val) 0 = img'.pix (2 * r.val) (2 * s.val) 0
      exact hagree _ _ (by omega) (by omega)
    · show img.pix (2 * r.val) (2 * s.val + 1) 0 = img'.pix (2 * r.val) (2 * s.val + 1) 0
      exact hagree _ _ (by omega) (by omega)
    · show img.pix (2 * r.val + 1) (2 * s.val) 0 = img'.pix (2 * r.val + 1) (2 * s.val) 0
      exact hagree _ _ (by omega) (by omega)
    · show img.pix (2 * r.val + 1) (2 * s.val + 1) 0 =
        img'.pix (2 * r.val + 1) (2 * s.val + 1) 0
      exact hagree _ _ (by omega) (by omega)
  rw [hphi]

/-- Witness for C10: a 30×30 image agreeing with the all-zero 28×28 image on
the top-left region yields the same output. -/
theorem quanv_crop28_witness :
    quanv [] img30mixed = some (quanvOut [] img30mixed) ∧
    quanv [] img30mixed = quanv [] img28zero :=
  quanv_crop28 [] img30mixed img28zero (by decide) (by decide) (by decide)
    (by decide) (by decide) (by decide)
    (by intro j k hj hk
        simp only [img30mixed, img28zero]
        rw [if_pos ⟨hj, hk⟩])
